import Mathlib

/-!
Verification development for the AurumOrchard trading bot (`src/bot/main.py`).

The development shallowly embeds the pure core of the bot:

* `to20`, `fee3`, `encode_v3_path` — the Uniswap V3 path codec
  (`_to20`, `_fee3`, `encode_v3_path` in the source);
* `min_out_calc` and `encode_flash_params_for_roundtrip` — the slippage
  floor and FlashParams builder (lines 105–130 of the source);
* `flashloan_and_arb` — the orchestration flow (lines 154–214), modelled
  as a function from an environment of on-chain oracle outcomes to the
  trace of privileged actions the flow performs.

Machine integers are `Nat`/`Int` (Python integers are unbounded); byte
strings are `List Nat` with each entry a byte value; fallible Python code
(assertions, raised exceptions) is embedded with `Except`.
-/

namespace AurumOrchard

/-- Big-endian byte representation of `v` in exactly `w` bytes, mirroring
Python `int.to_bytes(w, byteorder="big")` on in-range values. -/
def beBytes : Nat → Nat → List Nat
  | 0, _ => []
  | w + 1, v => beBytes w (v / 256) ++ [v % 256]

/-- Reassemble a big-endian byte list into the integer it denotes. -/
def fromBE (bs : List Nat) : Nat :=
  bs.foldl (fun acc b => acc * 256 + b) 0

/-- An EVM address: a 160-bit value.  A Python address string that passes
`Web3.to_checksum_address` denotes exactly such a value. -/
abbrev Address := Fin (2 ^ 160)

/-- `_to20`: the 20-byte big-endian binary form of a checksummed address
(`bytes.fromhex(to_checksum(addr)[2:])`). -/
def to20 (a : Address) : List Nat := beBytes 20 a.val

/-- Failure modes of the path encoder: `malformedPath` is the
`assert ... , "bad path lens"` failure, `feeOverflow` is the
`OverflowError` that `int(fee).to_bytes(3, byteorder="big")` raises when
`fee` is negative or does not fit in 3 bytes. -/
inductive PathError where
  | malformedPath
  | feeOverflow
deriving DecidableEq

/-- `_fee3`: `int(fee).to_bytes(3, byteorder="big")`.  Python raises
`OverflowError` when the value is negative or at least `2 ^ 24`. -/
def fee3 (f : Int) : Except PathError (List Nat) :=
  if 0 ≤ f ∧ f < 2 ^ 24 then .ok (beBytes 3 f.toNat) else .error .feeOverflow

/-- The loop body of `encode_v3_path`: for each fee, emit its 3 bytes
followed by the next token's 20 bytes (`out += _fee3(f); out += _to20(tokens[i+1])`). -/
def encodeHops : List Int → List Address → Except PathError (List Nat)
  | [], _ => .ok []
  | f :: fs, a :: rest => do
      let fb ← fee3 f
      let tl ← encodeHops fs rest
      .ok (fb ++ to20 a ++ tl)
  | _ :: _, [] => .error .malformedPath

instance : Inhabited Address := ⟨0⟩

/-- `encode_v3_path(tokens, fees)`: asserts
`len(tokens) >= 2 and len(fees) == len(tokens) - 1`, then emits
`to20 tokens[0]` followed by fee/token pairs (`tokens[0]` is `headI`, the
remaining tokens indexed by the fee loop are `tail`; the guard guarantees
both accesses are in range). -/
def encode_v3_path (tokens : List Address) (fees : List Int) :
    Except PathError (List Nat) :=
  if 2 ≤ tokens.length ∧ fees.length = tokens.length - 1 then
    (encodeHops fees tokens.tail).map (fun body => to20 tokens.headI ++ body)
  else .error .malformedPath

/-- Fixed-width reader for the hop section of an encoded path: reads
`k` groups of 3 fee bytes followed by 20 address bytes, demanding that the
input is consumed exactly. -/
def decodeHops : Nat → List Nat → Option (List Int × List Nat)
  | 0, [] => some ([], [])
  | 0, _ :: _ => none
  | k + 1, bs =>
      if 23 ≤ bs.length then
        match decodeHops k (bs.drop 23) with
        | some (fs, addrs) =>
            some (((fromBE (bs.take 3) : Nat) : Int) :: fs,
                  fromBE ((bs.drop 3).take 20) :: addrs)
        | none => none
      else none

/-- Fixed-width reader for a whole encoded path with `n` addresses:
20 bytes of first address, then `n - 1` hops. -/
def decode_v3_path (n : Nat) (bs : List Nat) :
    Option (List Nat × List Int) :=
  if 20 ≤ bs.length then
    match decodeHops (n - 1) (bs.drop 20) with
    | some (fs, addrs) => some (fromBE (bs.take 20) :: addrs, fs)
    | none => none
  else none

/- ### FlashParams: quote, slippage floor, ABI encoding (source lines 105–130) -/

/-- Zero padding that the ABI encoder appends to dynamic `bytes` to reach a
multiple of 32 bytes. -/
def pad32 (bs : List Nat) : List Nat :=
  bs ++ List.replicate ((32 - bs.length % 32) % 32) 0

/-- ABI tuple encoding of `(bytes, uint256)` as produced by
`eth_abi.encode(["bytes", "uint256"], [path, v])`: a two-slot head holding
the tail offset (64) and the integer, then the length-prefixed padded
bytes. -/
def abiEncodeBytesUint (path : List Nat) (v : Nat) : List Nat :=
  beBytes 32 64 ++ beBytes 32 v ++ beBytes 32 path.length ++ pad32 path

/-- The slippage floor computed at lines 126–127 of the source:
`repay_target = int(amount_in_wei) + int(premium_estimate_wei)` and
`min_out = max(repay_target + (repay_target * safety_buffer_bps // 10_000), 1)`. -/
def min_out_calc (amount_in_wei premium_estimate_wei safety_buffer_bps : Nat) :
    Nat :=
  let repay_target := amount_in_wei + premium_estimate_wei
  max (repay_target + repay_target * safety_buffer_bps / 10000) 1

/-- `encode_flash_params_for_roundtrip`: builds the roundtrip path
`[asset_in, mid_token, asset_in]` with the two hop fees, obtains the quote
(`quoted_out` stands for the first component of the value returned by the
on-chain call `QuoterV2.quoteExactInput(path, amount_in_wei)`, an oracle
input of the run), computes the slippage floor, and ABI-encodes
`(path, min_out)`.  Returns `(params_bytes, min_out, quoted_out)`. -/
def encode_flash_params_for_roundtrip (quoted_out : Nat)
    (asset_in mid_token : Address) (fee_in_to_mid fee_mid_to_out : Int)
    (amount_in_wei premium_estimate_wei safety_buffer_bps : Nat) :
    Except PathError (List Nat × Nat × Nat) := do
  let path ← encode_v3_path [asset_in, mid_token, asset_in]
      [fee_in_to_mid, fee_mid_to_out]
  let min_out := min_out_calc amount_in_wei premium_estimate_wei safety_buffer_bps
  .ok (abiEncodeBytesUint path min_out, min_out, quoted_out)

/- ### Orchestration flow (source lines 154–214) -/

/-- Privileged actions the flash flow performs: a `send_tx` invocation
(nonce, fees, gas estimate, sign, broadcast, wait), the `FlashCompleted`
decode attempt on the receipt, and the follow-up routing step
`split_via_goldstem` carrying its transfer amount in wei. -/
inductive Action where
  | submitTx
  | decodeProfit
  | routeProfit (amountWei : Nat)
deriving DecidableEq

/-- Observable content of the mined flash transaction receipt: the status
field and the outcome of `FlashCompleted().process_receipt(rcpt)`
(`error` models a raised decode exception, `ok` the list of decoded
`profitWei` values). -/
structure Receipt where
  status : Nat
  events : Except Unit (List Nat)

/-- Oracle environment of one `flashloan_and_arb` run: the configuration
read from the process environment together with the outcome of each
on-chain interaction the flow performs.  `flashConfigured` is whether
`FLASH_EXECUTOR_ADDRESS` and `FLASH_ASSET` are both set; `flashAmount` is
`FLASH_AMOUNT_WEI`; `minProfit` is `MIN_PROFIT_WEI`; `rootAddr` is the
operating account address; `ownerResult` is the result of the
`owner()` read; `quoteResult` that of the Quoter call; `sendResult` that of
`send_tx` on `runSimpleFlash`. -/
structure FlashEnv where
  flashConfigured : Bool
  flashAmount : Int
  minProfit : Int
  rootAddr : Address
  flashAsset : Address
  usdc : Address
  ownerResult : Except Unit Address
  quoteResult : Except Unit Nat
  sendResult : Except Unit Receipt

/-- Premium guess hard-coded at line 179 of the source:
`w3.to_wei(0.0000005, "ether")`. -/
def premiumEstimateWei : Nat := 500000000000

/-- Dust amount routed at line 212 of the source:
`w3.to_wei(0.00001, "ether")`. -/
def splitAmountWei : Nat := 10000000000000

/-- Profit decoded at lines 199–206: starts at 0; on a successful decode of
a nonempty event list it becomes the last event's `profitWei`; a decode
exception or an empty event list leaves it at 0. -/
def decodedProfit (rcpt : Receipt) : Int :=
  match rcpt.events with
  | .error _ => 0
  | .ok evts =>
      match evts.getLast? with
      | some p => (p : Int)
      | none => 0

/-- `flashloan_and_arb` as the trace of privileged actions it performs:
config gate, ownership gate (abort on mismatch or read failure),
quote-and-encode gate, `send_tx` of `runSimpleFlash` (an exception there
propagates, ending the flow), the unconditional `FlashCompleted` decode
attempt, and the strict `profit > MIN_PROFIT_WEI` routing decision that
sends `splitAmountWei` wei via Goldstem (itself one more `send_tx`). -/
def flashloan_and_arb (env : FlashEnv) : List Action :=
  if env.flashConfigured = true ∧ 0 < env.flashAmount then
    match env.ownerResult with
    | .error _ => []
    | .ok owner =>
        if owner = env.rootAddr then
          match env.quoteResult with
          | .error _ => []
          | .ok q =>
              match encode_flash_params_for_roundtrip q env.flashAsset env.usdc
                  500 500 env.flashAmount.toNat premiumEstimateWei 30 with
              | .error _ => []
              | .ok _ =>
                  match env.sendResult with
                  | .error _ => [.submitTx]
                  | .ok rcpt =>
                      [.submitTx, .decodeProfit] ++
                        (if env.minProfit < decodedProfit rcpt then
                          [.routeProfit splitAmountWei, .submitTx]
                        else [])
        else []
  else []

/- ### Arithmetic facts about the byte codec -/

theorem beBytes_length (w v : Nat) : (beBytes w v).length = w := by
  induction w generalizing v with
  | zero => simp [beBytes]
  | succ w ih => simp [beBytes, ih]

theorem fromBE_append_singleton (l : List Nat) (b : Nat) :
    fromBE (l ++ [b]) = fromBE l * 256 + b := by
  simp [fromBE, List.foldl_append]

theorem fromBE_beBytes (w v : Nat) : fromBE (beBytes w v) = v % 256 ^ w := by
  induction w generalizing v with
  | zero => simp [beBytes, fromBE, Nat.mod_one]
  | succ w ih =>
      rw [beBytes, fromBE_append_singleton, ih]
      rw [pow_succ, Nat.mul_comm (256 ^ w) 256, Nat.mod_mul]
      ring

theorem fromBE_beBytes_of_lt {w v : Nat} (h : v < 256 ^ w) :
    fromBE (beBytes w v) = v := by
  rw [fromBE_beBytes, Nat.mod_eq_of_lt h]

theorem to20_length (a : Address) : (to20 a).length = 20 :=
  beBytes_length 20 a.val

theorem fromBE_to20 (a : Address) : fromBE (to20 a) = a.val := by
  have h : a.val < 256 ^ 20 := by
    have := a.isLt
    have e : (256 : Nat) ^ 20 = 2 ^ 160 := by norm_num
    omega
  exact fromBE_beBytes_of_lt h

theorem fee3_ok_of_range {f : Int} (h0 : 0 ≤ f) (h1 : f < 2 ^ 24) :
    fee3 f = .ok (beBytes 3 f.toNat) := by
  rw [fee3, if_pos ⟨h0, h1⟩]

theorem fromBE_fee3 {f : Int} (h0 : 0 ≤ f) (h1 : f < 2 ^ 24) :
    ((fromBE (beBytes 3 f.toNat) : Nat) : Int) = f := by
  have e : (256 : Nat) ^ 3 = 2 ^ 24 := by norm_num
  have hlt : f.toNat < 256 ^ 3 := by omega
  rw [fromBE_beBytes_of_lt hlt, Int.toNat_of_nonneg h0]

/- ### Round-trip of the hop section -/

theorem encodeHops_roundtrip (fs : List Int) :
    ∀ addrs : List Address,
      fs.length = addrs.length →
      (∀ f ∈ fs, 0 ≤ f ∧ f < 2 ^ 24) →
      ∃ body, encodeHops fs addrs = .ok body ∧
        body.length = 23 * fs.length ∧
        decodeHops fs.length body = some (fs, addrs.map Fin.val) := by
  induction fs with
  | nil =>
      intro addrs hlen _
      cases addrs with
      | nil => exact ⟨[], rfl, rfl, rfl⟩
      | cons a t => simp at hlen
  | cons f fs ih =>
      intro addrs hlen hr
      cases addrs with
      | nil => simp at hlen
      | cons a addrs =>
          obtain ⟨body, hok, hblen, hdec⟩ := ih addrs (by simpa using hlen)
            (fun g hg => hr g (List.mem_cons_of_mem _ hg))
          obtain ⟨h0, h1⟩ := hr f (List.mem_cons_self _ _)
          refine ⟨beBytes 3 f.toNat ++ to20 a ++ body, ?_, ?_, ?_⟩
          · simp only [encodeHops, fee3_ok_of_range h0 h1, hok]
            rfl
          · simp [beBytes_length, to20_length, hblen]
            ring
          · have e1 : (beBytes 3 f.toNat ++ to20 a ++ body).drop 23 = body :=
              List.drop_left' (by simp [beBytes_length, to20_length])
            have e2 : (beBytes 3 f.toNat ++ to20 a ++ body).take 3 =
                beBytes 3 f.toNat := by
              rw [List.append_assoc]
              exact List.take_left' (beBytes_length 3 _)
            have e3 : (beBytes 3 f.toNat ++ to20 a ++ body).drop 3 =
                to20 a ++ body := by
              rw [List.append_assoc]
              exact List.drop_left' (beBytes_length 3 _)
            have hlen23 : 23 ≤ (beBytes 3 f.toNat ++ to20 a ++ body).length := by
              simp [beBytes_length, to20_length]
              omega
            simp only [List.length_cons, decodeHops, if_pos hlen23, e1, hdec,
              e2, e3, List.take_left' (to20_length a), fromBE_to20, List.map_cons]
            rw [fromBE_fee3 h0 h1]

theorem fee3_range_of_ok {f : Int} {bs : List Nat} (h : fee3 f = .ok bs) :
    0 ≤ f ∧ f < 2 ^ 24 := by
  by_cases hc : 0 ≤ f ∧ f < 2 ^ 24
  · exact hc
  · rw [fee3, if_neg hc] at h
    cases h

theorem encodeHops_ok_fee_range (fs : List Int) :
    ∀ (addrs : List Address) (body : List Nat),
      encodeHops fs addrs = .ok body → ∀ f ∈ fs, 0 ≤ f ∧ f < 2 ^ 24 := by
  induction fs with
  | nil => intro addrs body _ f hf; exact absurd hf (List.not_mem_nil f)
  | cons f fs ih =>
      intro addrs body h g hg
      cases addrs with
      | nil => cases h
      | cons a addrs =>
          cases hfee : fee3 f with
          | error e => rw [encodeHops, hfee] at h; cases h
          | ok fb =>
              cases hok : encodeHops fs addrs with
              | error e => rw [encodeHops, hfee, hok] at h; cases h
              | ok body2 =>
                  rcases List.mem_cons.mp hg with rfl | hg2
                  · exact fee3_range_of_ok hfee
                  · exact ih addrs body2 hok g hg2

theorem encodeHops_feeOverflow (fs : List Int) :
    ∀ addrs : List Address,
      fs.length = addrs.length →
      (∃ f ∈ fs, f < 0 ∨ 2 ^ 24 ≤ f) →
      encodeHops fs addrs = .error .feeOverflow := by
  induction fs with
  | nil =>
      rintro addrs _ ⟨f, hf, _⟩
      exact absurd hf (List.not_mem_nil f)
  | cons f fs ih =>
      rintro addrs hlen ⟨g, hg, hout⟩
      cases addrs with
      | nil => simp at hlen
      | cons a addrs =>
          by_cases hc : 0 ≤ f ∧ f < 2 ^ 24
          · have hg2 : g ∈ fs := by
              rcases List.mem_cons.mp hg with rfl | h2
              · exact absurd hout (by omega)
              · exact h2
            have hrec := ih addrs (by simpa using hlen) ⟨g, hg2, hout⟩
            rw [encodeHops, fee3_ok_of_range hc.1 hc.2, hrec]
            rfl
          · rw [encodeHops, fee3, if_neg hc]
            rfl

/-- C2: for every token list of `n ≥ 2` addresses and fee list of exactly
`n - 1` values each representable in 3 bytes, `encode_v3_path` returns the
concatenation of 20-byte addresses and 3-byte big-endian fees; the result
has exactly `20 * n + 3 * (n - 1)` bytes, and splitting it back by those
fixed field widths recovers the original addresses and fees. -/
theorem c2_encode_v3_path_roundtrip (tokens : List Address) (fees : List Int)
    (h2 : 2 ≤ tokens.length) (hlen : fees.length = tokens.length - 1)
    (hr : ∀ f ∈ fees, 0 ≤ f ∧ f < 2 ^ 24) :
    ∃ bs, encode_v3_path tokens fees = .ok bs ∧
      bs.length = 20 * tokens.length + 3 * (tokens.length - 1) ∧
      decode_v3_path tokens.length bs = some (tokens.map Fin.val, fees) := by
  cases tokens with
  | nil => simp at h2
  | cons t0 rest =>
      have hlen2 : fees.length = rest.length := by
        simp only [List.length_cons] at hlen
        omega
      obtain ⟨body, hok, hblen, hdec⟩ := encodeHops_roundtrip fees rest hlen2 hr
      refine ⟨to20 t0 ++ body, ?_, ?_, ?_⟩
      · rw [encode_v3_path, if_pos ⟨h2, hlen⟩]
        simp only [List.tail_cons, List.headI_cons, hok]
        rfl
      · simp only [List.length_append, to20_length, hblen, List.length_cons]
        omega
      · have e1 : (to20 t0 ++ body).take 20 = to20 t0 :=
          List.take_left' (to20_length t0)
        have e2 : (to20 t0 ++ body).drop 20 = body :=
          List.drop_left' (to20_length t0)
        have h20 : 20 ≤ (to20 t0 ++ body).length := by
          simp [to20_length]
        have hn : (t0 :: rest).length - 1 = fees.length := by
          simp only [List.length_cons]
          omega
        rw [decode_v3_path, if_pos h20, e2, hn, hdec, e1, fromBE_to20]
        simp

/-- Witness for C2 at a concrete two-token path with fee 500. -/
theorem c2_witness :
    ∃ bs, encode_v3_path [(0 : Address), (1 : Address)] [(500 : Int)] = .ok bs ∧
      bs.length = 20 * ([(0 : Address), (1 : Address)].length) +
        3 * ([(0 : Address), (1 : Address)].length - 1) ∧
      decode_v3_path ([(0 : Address), (1 : Address)].length) bs =
        some ([(0 : Address), (1 : Address)].map Fin.val, [(500 : Int)]) :=
  c2_encode_v3_path_roundtrip [(0 : Address), (1 : Address)] [(500 : Int)]
    (by decide) (by decide) (by decide)

/-- C3: whenever the input lists violate the precondition
(`tokens.length < 2` or `fees.length ≠ tokens.length - 1`),
`encode_v3_path` fails with the MalformedPath error (the
`assert ..., "bad path lens"`), before producing any output bytes. -/
theorem c3_encode_v3_path_malformed (tokens : List Address) (fees : List Int)
    (h : tokens.length < 2 ∨ fees.length ≠ tokens.length - 1) :
    encode_v3_path tokens fees = .error .malformedPath := by
  have hcond : ¬(2 ≤ tokens.length ∧ fees.length = tokens.length - 1) := by
    rintro ⟨h1, hh2⟩
    rcases h with h | h
    · omega
    · exact h hh2
  rw [encode_v3_path, if_neg hcond]

/-- Witness for C3 at a concrete single-token path. -/
theorem c3_witness :
    encode_v3_path [(0 : Address)] [] = .error .malformedPath :=
  c3_encode_v3_path_malformed [(0 : Address)] [] (Or.inl (by decide))

/-- C9 counterexample: the claim asserts that for some fee outside the
3-byte width `encode_v3_path` still returns a byte string.  In fact no such
input exists: `int(fee).to_bytes(3, "big")` raises OverflowError, so every
successful encoding has all fees within range. -/
theorem c9_counterexample_overflow_fails :
    ¬ ∃ (tokens : List Address) (fees : List Int) (f : Int) (bs : List Nat),
        f ∈ fees ∧ (f < 0 ∨ 2 ^ 24 ≤ f) ∧ encode_v3_path tokens fees = .ok bs := by
  rintro ⟨tokens, fees, f, bs, hf, hout, hok⟩
  by_cases hc : 2 ≤ tokens.length ∧ fees.length = tokens.length - 1
  · rw [encode_v3_path, if_pos hc] at hok
    cases tokens with
    | nil => simp at hc
    | cons t0 rest =>
        simp only [List.tail_cons, List.headI_cons] at hok
        cases hbody : encodeHops fees rest with
        | error e => rw [hbody] at hok; cases hok
        | ok body =>
            have hrange := encodeHops_ok_fee_range fees rest body hbody f hf
            omega
  · rw [encode_v3_path, if_neg hc] at hok
    cases hok

/-- C9 amended: for any fee value outside the declared 3-byte width (negative
or at least `2 ^ 24`) with otherwise valid inputs, `encode_v3_path` does not
return a byte string: it fails with the fee OverflowError raised by
`int(fee).to_bytes(3, byteorder="big")`. -/
theorem c9_amended_fee_overflow_error (tokens : List Address) (fees : List Int)
    (h2 : 2 ≤ tokens.length) (hlen : fees.length = tokens.length - 1)
    (f : Int) (hf : f ∈ fees) (hout : f < 0 ∨ 2 ^ 24 ≤ f) :
    encode_v3_path tokens fees = .error .feeOverflow := by
  cases tokens with
  | nil => simp at h2
  | cons t0 rest =>
      have hlen2 : fees.length = rest.length := by
        simp only [List.length_cons] at hlen
        omega
      have hrec := encodeHops_feeOverflow fees rest hlen2 ⟨f, hf, hout⟩
      rw [encode_v3_path, if_pos ⟨h2, hlen⟩]
      simp only [List.tail_cons, List.headI_cons, hrec]
      rfl

/-- Witness for the amended C9 at fee `2 ^ 24`, one past the 3-byte maximum. -/
theorem c9_witness :
    encode_v3_path [(0 : Address), (1 : Address)] [(2 ^ 24 : Int)] =
      .error .feeOverflow :=
  c9_amended_fee_overflow_error [(0 : Address), (1 : Address)] [(2 ^ 24 : Int)]
    (by decide) (by decide) (2 ^ 24 : Int) (by decide) (Or.inr (by decide))

/-- C4: the minimum-output computation returns
`max(repayTarget + floor(repayTarget * bufferBps / 10000), 1)` with
`repayTarget = amountBorrowed + estimatedPremium` for every input; at
`(1000000, 0, 30)` it returns `1003000`; it is never below 1, including at
a zero borrowed amount; and it is exactly the `min_out` component that
`encode_flash_params_for_roundtrip` returns. -/
theorem c4_min_out_spec :
    (∀ a p b : Nat,
        min_out_calc a p b = max ((a + p) + (a + p) * b / 10000) 1) ∧
    min_out_calc 1000000 0 30 = 1003000 ∧
    (∀ a p b : Nat, 1 ≤ min_out_calc a p b) ∧
    (∀ (q : Nat) (asset mid : Address) (a p b : Nat),
        (encode_flash_params_for_roundtrip q asset mid 500 500 a p b).map
            (fun r => r.2.1) =
          .ok (min_out_calc a p b)) := by
  refine ⟨fun a p b => rfl, by norm_num [min_out_calc], ?_, ?_⟩
  · intro a p b
    exact le_max_right _ 1
  · intro q asset mid a p b
    have h500 : fee3 500 = .ok (beBytes 3 (500 : Int).toNat) :=
      fee3_ok_of_range (by norm_num) (by norm_num)
    rw [encode_flash_params_for_roundtrip, encode_v3_path]
    rw [if_pos (by simp)]
    simp only [List.tail_cons, List.headI_cons, encodeHops, h500]
    rfl

/-- C5: the `min_out` value and the FlashParams bytes embedded by
`encode_flash_params_for_roundtrip` do not depend on the quoted
`amountOut`: two runs that differ only in the value returned by the pricing
contract produce identical `(params_bytes, min_out)` components. -/
theorem c5_min_out_quote_independent (q1 q2 : Nat) (asset mid : Address)
    (f1 f2 : Int) (a p b : Nat) :
    (encode_flash_params_for_roundtrip q1 asset mid f1 f2 a p b).map
        (fun r => (r.1, r.2.1)) =
      (encode_flash_params_for_roundtrip q2 asset mid f1 f2 a p b).map
        (fun r => (r.1, r.2.1)) := by
  rw [encode_flash_params_for_roundtrip, encode_flash_params_for_roundtrip]
  cases encode_v3_path [asset, mid, asset] [f1, f2] with
  | error e => rfl
  | ok path => rfl

theorem encode_flash_params_ok (q : Nat) (asset mid : Address) (a p b : Nat) :
    ∃ r, encode_flash_params_for_roundtrip q asset mid 500 500 a p b = .ok r := by
  rw [encode_flash_params_for_roundtrip, encode_v3_path]
  rw [if_pos (by simp)]
  simp only [List.tail_cons, List.headI_cons, encodeHops,
    fee3_ok_of_range (by norm_num : (0 : Int) ≤ 500) (by norm_num : (500 : Int) < 2 ^ 24)]
  exact ⟨_, rfl⟩

theorem flashloan_trace_submitted (env : FlashEnv) (rcpt : Receipt) (q : Nat)
    (hc : env.flashConfigured = true) (ha : 0 < env.flashAmount)
    (ho : env.ownerResult = .ok env.rootAddr)
    (hq : env.quoteResult = .ok q)
    (hs : env.sendResult = .ok rcpt) :
    flashloan_and_arb env =
      [.submitTx, .decodeProfit] ++
        (if env.minProfit < decodedProfit rcpt then
          [.routeProfit splitAmountWei, .submitTx]
        else []) := by
  obtain ⟨r, hr⟩ := encode_flash_params_ok q env.flashAsset env.usdc
    env.flashAmount.toNat premiumEstimateWei 30
  rw [flashloan_and_arb.eq_def, if_pos ⟨hc, ha⟩]
  simp only [ho, hq, hr, hs, if_pos rfl, if_true]

/-- C1: whenever the execution contract owner() read returns an address
different from the operating account, or the read itself raises, the flash
flow aborts with zero transaction submissions: the action trace is empty,
so nothing is signed or broadcast in that run. -/
theorem c1_owner_gate_no_submission (env : FlashEnv)
    (h : env.ownerResult = .error () ∨
      ∃ o, env.ownerResult = .ok o ∧ o ≠ env.rootAddr) :
    flashloan_and_arb env = [] := by
  rw [flashloan_and_arb.eq_def]
  split
  · rcases h with h | ⟨o, ho, hne⟩
    · rw [h]
    · simp only [ho]
      rw [if_neg hne]
  · rfl

/-- Witness for C1: a concrete run whose owner() read returns an address
different from the operating account yields an empty trace. -/
theorem c1_witness :
    flashloan_and_arb
      ⟨true, 1, 0, (0 : Address), (2 : Address), (3 : Address),
        .ok (1 : Address), .ok 0, .error ()⟩ = [] :=
  c1_owner_gate_no_submission _ (Or.inr ⟨(1 : Address), rfl, by decide⟩)

/-- C6 counterexample: a concrete run whose flash transaction is mined but
reverted (receipt status 0).  The orchestrator nevertheless performs the
profit-event decode attempt, contradicting the claim that a reverted
outcome triggers neither profit decoding nor routing: the code never
inspects the receipt status before calling `process_receipt`. -/
theorem c6_counterexample_decode_on_revert :
    (∃ rcpt, (FlashEnv.sendResult
        ⟨true, 1, 0, (0 : Address), (2 : Address), (3 : Address),
          .ok (0 : Address), .ok 0, .ok ⟨0, .ok []⟩⟩) = .ok rcpt ∧
        rcpt.status ≠ 1) ∧
    Action.decodeProfit ∈ flashloan_and_arb
      ⟨true, 1, 0, (0 : Address), (2 : Address), (3 : Address),
        .ok (0 : Address), .ok 0, .ok ⟨0, .ok []⟩⟩ := by
  refine ⟨⟨⟨0, .ok []⟩, rfl, by decide⟩, ?_⟩
  decide

/-- C6 amended: when the flash transaction is mined but reverted, the
orchestrator still performs the profit-event decode attempt; provided the
reverted receipt yields no decodable FlashCompleted event (a reverted
transaction emits no logs) and the configured threshold is non-negative,
the profit degrades to 0 and no follow-up routing action fires: the trace
is exactly the single submission followed by the decode attempt. -/
theorem c6_amended_no_route_on_revert (env : FlashEnv) (rcpt : Receipt)
    (q : Nat)
    (hc : env.flashConfigured = true) (ha : 0 < env.flashAmount)
    (ho : env.ownerResult = .ok env.rootAddr)
    (hq : env.quoteResult = .ok q)
    (hs : env.sendResult = .ok rcpt)
    (_hstatus : rcpt.status ≠ 1)
    (hev : rcpt.events = .error () ∨ rcpt.events = .ok [])
    (ht : 0 ≤ env.minProfit) :
    flashloan_and_arb env = [.submitTx, .decodeProfit] := by
  have hprofit : decodedProfit rcpt = 0 := by
    rcases hev with h | h <;> simp [decodedProfit, h]
  rw [flashloan_trace_submitted env rcpt q hc ha ho hq hs, hprofit,
    if_neg (by omega)]
  rfl

/-- Witness for the amended C6 at a concrete reverted run. -/
theorem c6_amended_witness :
    flashloan_and_arb
      ⟨true, 1, 0, (0 : Address), (2 : Address), (3 : Address),
        .ok (0 : Address), .ok 0, .ok ⟨0, .ok []⟩⟩ =
      [.submitTx, .decodeProfit] :=
  c6_amended_no_route_on_revert _ ⟨0, .ok []⟩ 0 rfl (by decide) rfl rfl rfl
    (by decide) (Or.inr rfl) (by decide)

/-- C7: the follow-up routing action fires exactly when the decoded profit
is strictly greater than the configured threshold: the trace contains the
routing action once when `profit > MIN_PROFIT_WEI` and zero times
otherwise — in particular not when the profit equals the threshold. -/
theorem c7_route_iff_profit_above_threshold (env : FlashEnv) (rcpt : Receipt)
    (q : Nat) (evts : List Nat) (p : Nat)
    (hc : env.flashConfigured = true) (ha : 0 < env.flashAmount)
    (ho : env.ownerResult = .ok env.rootAddr)
    (hq : env.quoteResult = .ok q)
    (hs : env.sendResult = .ok rcpt)
    (he : rcpt.events = .ok evts) (hl : evts.getLast? = some p) :
    (flashloan_and_arb env).count (Action.routeProfit splitAmountWei) =
      if env.minProfit < (p : Int) then 1 else 0 := by
  have hp : decodedProfit rcpt = (p : Int) := by
    simp [decodedProfit, he, hl]
  rw [flashloan_trace_submitted env rcpt q hc ha ho hq hs, hp]
  by_cases hlt : env.minProfit < (p : Int)
  · rw [if_pos hlt, if_pos hlt]
    rfl
  · rw [if_neg hlt, if_neg hlt]
    rfl

/-- Witness for C7: decoded profit 500 against threshold 400 routes exactly
once. -/
theorem c7_witness :
    (flashloan_and_arb
        ⟨true, 1, 400, (0 : Address), (2 : Address), (3 : Address),
          .ok (0 : Address), .ok 0, .ok ⟨1, .ok [500]⟩⟩).count
      (Action.routeProfit splitAmountWei) = 1 := by
  have h := c7_route_iff_profit_above_threshold
    ⟨true, 1, 400, (0 : Address), (2 : Address), (3 : Address),
      .ok (0 : Address), .ok 0, .ok ⟨1, .ok [500]⟩⟩
    ⟨1, .ok [500]⟩ 0 [500] 500 rfl (by decide) rfl rfl rfl rfl rfl
  rw [h]
  decide

/-- C8: when the FlashCompleted event is absent from the receipt or fails
to decode, the profit is treated as 0 and the run continues to the no-go
branch of the routing decision: the trace still contains the single
submission and the decode attempt (no abort, no retry), and no routing
action fires given a non-negative threshold. -/
theorem c8_decode_failure_no_go (env : FlashEnv) (rcpt : Receipt) (q : Nat)
    (hc : env.flashConfigured = true) (ha : 0 < env.flashAmount)
    (ho : env.ownerResult = .ok env.rootAddr)
    (hq : env.quoteResult = .ok q)
    (hs : env.sendResult = .ok rcpt)
    (hev : rcpt.events = .error () ∨ rcpt.events = .ok [])
    (ht : 0 ≤ env.minProfit) :
    flashloan_and_arb env = [.submitTx, .decodeProfit] := by
  have hprofit : decodedProfit rcpt = 0 := by
    rcases hev with h | h <;> simp [decodedProfit, h]
  rw [flashloan_trace_submitted env rcpt q hc ha ho hq hs, hprofit,
    if_neg (by omega)]
  rfl

/-- Witness for C8 at a concrete run whose event decode raises. -/
theorem c8_witness :
    flashloan_and_arb
      ⟨true, 1, 0, (0 : Address), (2 : Address), (3 : Address),
        .ok (0 : Address), .ok 0, .ok ⟨1, .error ()⟩⟩ =
      [.submitTx, .decodeProfit] :=
  c8_decode_failure_no_go _ ⟨1, .error ()⟩ 0 rfl (by decide) rfl rfl rfl
    (Or.inl rfl) (by decide)

/-- C10: whenever the follow-up routing action fires, the amount
transferred from the operating account to the treasury contract is the
fixed constant `w3.to_wei(0.00001, "ether") = 10 ^ 13` wei, independent of
the magnitude of the decoded profit. -/
theorem c10_route_amount_fixed (env : FlashEnv) (amt : Nat)
    (h : Action.routeProfit amt ∈ flashloan_and_arb env) :
    amt = 10000000000000 := by
  rw [flashloan_and_arb.eq_def] at h
  split at h
  case isFalse => simp at h
  case isTrue =>
    cases ho : env.ownerResult with
    | error e => simp only [ho] at h; simp at h
    | ok owner =>
        simp only [ho] at h
        split at h
        case isFalse => simp at h
        case isTrue =>
          cases hq : env.quoteResult with
          | error e => simp only [hq] at h; simp at h
          | ok q =>
              simp only [hq] at h
              cases henc : encode_flash_params_for_roundtrip q env.flashAsset
                  env.usdc 500 500 env.flashAmount.toNat premiumEstimateWei 30 with
              | error e => simp only [henc] at h; simp at h
              | ok r =>
                  simp only [henc] at h
                  cases hs : env.sendResult with
                  | error e => simp only [hs] at h; simp at h
                  | ok rcpt =>
                      simp only [hs] at h
                      split at h
                      · simp [splitAmountWei] at h
                        exact h
                      · simp at h

/-- Witness for C10: a concrete profitable run routes exactly the fixed
dust amount. -/
theorem c10_witness :
    Action.routeProfit 10000000000000 ∈ flashloan_and_arb
        ⟨true, 1, 0, (0 : Address), (2 : Address), (3 : Address),
          .ok (0 : Address), .ok 0, .ok ⟨1, .ok [5]⟩⟩ ∧
    (10000000000000 : Nat) = 10000000000000 :=
  ⟨by decide,
   c10_route_amount_fixed
     ⟨true, 1, 0, (0 : Address), (2 : Address), (3 : Address),
       .ok (0 : Address), .ok 0, .ok ⟨1, .ok [5]⟩⟩ 10000000000000 (by decide)⟩
